import Mathlib

/-!
Verification development for the tinynet repository.

The development shallowly embeds the three source modules:

* `varint.rs` — a prefix-based variable-length integer codec plus a zigzag
  transform. Machine integers (`u64`, `u8`, `i64`) are modelled as `Nat`/`Int`
  with explicit `% 2 ^ 64` (resp. `% 256`) where wrapping matters. Code paths
  that panic in Rust (slice-length failures, `unreachable!`, `unwrap` on a
  failed conversion, `usize` underflow) are modelled by `Option`, with `none`
  meaning the call panics.

* `window.rs` — a fixed-capacity sliding bitmap window. `Window<N>` is a list
  of `N` machine words plus a `u64` base index; `insert` returns `none` when
  the Rust code would panic on an out-of-bounds word index.

* `shared_slots.rs` — a fixed-capacity slot pool. Every public operation of
  the pool runs entirely inside critical sections (the `next_free` mutex
  and/or one slot mutex), so a thread interleaving of complete operations is
  modelled by a sequence of atomic transitions on a `PoolState`: the pool's
  shared data (`slots`, `next_free`) together with the multiset of live
  guards, each of which holds its slot's lock. An operation that would block
  on a lock held by a live guard yields the `blocked` outcome (no
  transition); a `unreachable!` or indexing panic yields `fatal`.
-/

/-! ### varint.rs -/

/-- Modulus of `u64` arithmetic. -/
def U64_MOD : Nat := 2 ^ 64

/-- Value of `usize::MAX` on the 64-bit targets the crate assumes. -/
def USIZE_MAX : Nat := 2 ^ 64 - 1

/-- Big-endian byte decomposition of a `u64`, as in `u64::to_be_bytes`. -/
def toBeBytes (val : Nat) : List Nat :=
  (List.range 8).map (fun i => val / 2 ^ (8 * (7 - i)) % 256)

/-- Reassemble a big-endian byte list, as in `u64::from_be_bytes`. -/
def fromBeBytes (bytes : List Nat) : Nat :=
  bytes.foldl (fun acc b => acc * 256 + b) 0

/-- Number of leading one bits of a byte, as in `u8::leading_ones`. -/
def leadingOnes8 (b : Nat) : Nat :=
  ((List.range 8).takeWhile (fun i => b / 2 ^ (7 - i) % 2 = 1)).length

/-- Translation of `ceil_div` from varint.rs. -/
def ceil_div (n d : Nat) : Nat := (n + d - 1) / d

/-- Translation of `decode_varint_len` from varint.rs: the total length of a
varint given its most significant byte. -/
def decode_varint_len (msb : Nat) : Nat := leadingOnes8 msb + 1

/-- Number of leading zero bits of a `u64`, as in `u64::leading_zeros`. -/
def leadingZeros64 (val : Nat) : Nat :=
  ((List.range 64).takeWhile (fun i => val / 2 ^ (63 - i) % 2 = 0)).length

/-- Bit length of a `u64` value, `u64::BITS - val.leading_zeros()`. -/
def bitLen (val : Nat) : Nat := 64 - leadingZeros64 val

/-- Translation of `encode_varint` from varint.rs. The Rust function writes
into a caller-supplied buffer and returns the number of bytes written; the
model returns exactly the list of written bytes (so its length is the Rust
return value). -/
def encode_varint (val : Nat) : List Nat :=
  let len := ceil_div (bitLen val) 7
  if len ≤ 1 then
    [val % 256]
  else if len ≤ 8 then
    let prefixBits := 255 * 2 ^ (9 - len) % 256
    let msbMask := 255 / 2 ^ len
    let bytes := (toBeBytes val).drop (8 - len)
    match bytes with
    | [] => []
    | b0 :: rest => (b0 % 256 &&& msbMask ||| prefixBits) :: rest
  else
    255 :: toBeBytes val

/-- Translation of `decode_varint_unchecked` from varint.rs, panic-faithful:
`none` models a panic. The function builds `let mut buf = [0; 8]`, computes
`offset = 8 - len` (a `usize` subtraction that panics when `len = 9`), copies
`src` into `buf[offset..]`, masks `buf[offset]`, and finally evaluates
`u64::from_be_bytes(buf[1..].try_into().unwrap())`, which requires the slice
`buf[1..]` to have exactly 8 bytes. -/
def decode_varint_unchecked (src : List Nat) : Option Nat :=
  let len := src.length
  if ¬ (1 ≤ len ∧ len ≤ 9) then
    none
  else if 8 < len then
    none
  else
    let offset := 8 - len
    let buf := List.replicate offset 0 ++ src
    let buf := buf.set offset ((buf.getD offset 0) &&& 255 / 2 ^ len)
    if (buf.drop 1).length = 8 then some (fromBeBytes (buf.drop 1)) else none

/-- Translation of `decode_varint` from varint.rs. The outer `Option` models
panics (`none` = the call panics); the inner `Option` is the Rust return
value (`some none` = the call returns `None` for a short buffer). -/
def decode_varint (src : List Nat) : Option (Option Nat) :=
  match src[0]? with
  | none => some none
  | some b0 =>
    let len := decode_varint_len b0
    if len ≤ src.length then
      match decode_varint_unchecked (src.take len) with
      | none => none
      | some v => some (some v)
    else
      some none

/-- Two's-complement bit pattern of an `i64` value, i.e. the `as u64` cast. -/
def toPat (x : Int) : Nat := (x % (U64_MOD : Int)).toNat

/-- Signed value of a `u64` bit pattern, i.e. the `as i64` cast. -/
def fromPat (p : Nat) : Int := if p < 2 ^ 63 then (p : Int) else (p : Int) - U64_MOD

/-- Translation of `zigzag_encode` from varint.rs:
`((val >> i64::BITS-1) ^ (val << 1)) as u64`. The arithmetic right shift of an
in-range `i64` by 63 is `-1` for negative values and `0` otherwise; `val << 1`
wraps, which at the bit-pattern level is multiplication by 2 mod `2 ^ 64`. -/
def zigzag_encode (val : Int) : Nat :=
  toPat (if val < 0 then -1 else 0) ^^^ toPat (val * 2)

/-- Translation of `zigzag_decode` from varint.rs:
`((val >> 1) as i64) ^ -(val as i64 & 1)`. The logical right shift of the
`u64` is division by 2, and `-(val & 1)` is `-1` or `0`, with bit pattern
all-ones or zero. -/
def zigzag_decode (val : Nat) : Int :=
  fromPat ((val / 2) ^^^ toPat (-((val % 2 : Nat) : Int)))

/-! ### window.rs -/

/-- Translation of the `Window<N>` struct from window.rs. The const generic
`N` is passed to the operations; `map` is the `[usize; N]` word array and
`first_index` the `u64` base. `usize::BITS` is 64. -/
structure Window where
  map : List Nat
  first_index : Nat
deriving DecidableEq

namespace Window

/-- Translation of `Window::new`. -/
def new (N : Nat) : Window := ⟨List.replicate N 0, 0⟩

/-- Translation of `Window::can_insert` from window.rs. The word read
`self.map[word_idx]` happens only under `word_idx < N`, so it is in bounds
whenever `map` has length `N`; `getD` returns the word (with an irrelevant
default for ill-formed states). -/
def can_insert (N : Nat) (w : Window) (index : Nat) : Bool :=
  if index < w.first_index then
    false
  else
    let adjusted := index - w.first_index
    let word_idx := adjusted / 64
    let word_offset := adjusted % 64
    let mask := 2 ^ word_offset
    if N ≤ word_idx then true
    else decide (w.map.getD word_idx 0 &&& mask = 0)

/-- Final block of `Window::insert`: read `self.map[word_idx]` (`none` models
the indexing panic when it is out of bounds), report whether the bit was
clear, and set it. -/
def insertTail (w : Window) (word_idx word_offset : Nat) : Option (Bool × Window) :=
  if h : word_idx < w.map.length then
    let word := w.map.get ⟨word_idx, h⟩
    let mask := 2 ^ word_offset
    some (decide (word &&& mask = 0), ⟨w.map.set word_idx (word ||| mask), w.first_index⟩)
  else
    none

/-- Translation of `Window::insert` from window.rs, panic-faithful: `none`
models the panic of `self.map[word_idx]` when `word_idx` is out of bounds.
The expansion branch's `copy_within(N - keep.., 0)` followed by
`map[keep..].fill(0)` leaves `drop (N - keep) map ++ replicate (N - keep) 0`;
`keep` uses `saturating_sub`, which on `Nat` is plain subtraction. The
`first_index` update wraps at `2 ^ 64` as the `u64` addition does. -/
def insert (N : Nat) (w : Window) (index : Nat) : Option (Bool × Window) :=
  if index < w.first_index then
    some (false, w)
  else
    let adjusted := index - w.first_index
    let word_idx := adjusted / 64
    let word_offset := adjusted % 64
    if N ≤ word_idx then
      let gap := word_idx - N
      let keep := N / 2 + 1 - gap
      insertTail
        ⟨w.map.drop (N - keep) ++ List.replicate (N - keep) 0,
         (w.first_index + (gap + N / 2) * 64) % U64_MOD⟩
        (N / 2 + 1) word_offset
    else
      insertTail w word_idx word_offset

end Window

/-! ### shared_slots.rs

Data model. A `Slot` is the tagged union stored in each mutex; `SharedSlots`
is the shared struct (`slots` array plus `next_free` head). A live guard
(`Reserved` or `Occupied`) owns its slot's lock; `PoolState` pairs the shared
struct with the list of live guards. Every public operation of the crate runs
entirely inside critical sections, so each is modelled as one atomic
transition on `PoolState`. -/

inductive Slot (T : Type) where
  | occupied (item : T)
  | vacant (next : Nat)
deriving DecidableEq

structure SharedSlots (T : Type) where
  slots : List (Slot T)
  next_free : Nat
deriving DecidableEq

inductive GuardKind where
  | reserved
  | occupied
deriving DecidableEq

/-- A live guard: the key it holds, and whether it is the `Reserved` or the
`Occupied` guard type. A live guard owns the mutex of slot `key`. -/
structure Guard where
  key : Nat
  kind : GuardKind
deriving DecidableEq

structure PoolState (T : Type) where
  pool : SharedSlots T
  guards : List Guard
deriving DecidableEq

/-- Outcome of one atomic public operation: `ok` completes, `blocked` means
the operation would block on a slot mutex held by a live guard, `fatal`
models a panic (`unreachable!`). -/
inductive Outcome (α : Type) where
  | ok (val : α)
  | blocked
  | fatal
deriving DecidableEq

namespace PoolState

variable {T : Type}

/-- Keys of the live guards, i.e. the slot mutexes currently held. -/
def guardKeys (s : PoolState T) : List Nat := s.guards.map (fun g => g.key)

/-- Whether slot `k`'s mutex is held by a live guard. -/
def isLocked (s : PoolState T) (k : Nat) : Bool := s.guards.any (fun g => g.key == k)

end PoolState

/-- Translation of `impl Drop for SlotRef` from shared_slots.rs, acting on the
shared struct: lock `next_free`; if the slot is `Vacant`, set its `next` to
the old head and publish `key` as the new head; if `Occupied`, do nothing. -/
def SharedSlots.dropSlotRef (p : SharedSlots T) (key : Nat) : SharedSlots T :=
  match p.slots[key]? with
  | some (.vacant _) => ⟨p.slots.set key (.vacant p.next_free), key⟩
  | _ => p

namespace PoolState

variable {T : Type}

/-- Dropping the live guard that holds key `k`: its inner `SlotRef` is
dropped (relinking the key into the free list exactly when the slot is
`Vacant`) and the guard ceases to be live. -/
def dropGuard (s : PoolState T) (k : Nat) : PoolState T :=
  ⟨s.pool.dropSlotRef k, s.guards.filter (fun g => !(g.key == k))⟩

/-- Translation of `SharedSlots::reserve`. The whole body runs under the
`next_free` mutex: read the head `key`; `self.slots.get(key)?` returns `None`
when `key` is out of range (pool full); otherwise lock slot `key` (blocking
while a live guard holds it); a `Vacant` slot is popped (head advances to its
`next`) and a `Reserved` guard becomes live; an `Occupied` slot hits
`unreachable!`. -/
def reserve (s : PoolState T) : Outcome (Option Nat × PoolState T) :=
  let key := s.pool.next_free
  match s.pool.slots[key]? with
  | none => .ok (none, s)
  | some sl =>
    if s.isLocked key then .blocked
    else
      match sl with
      | .vacant next =>
        .ok (some key, ⟨⟨s.pool.slots, next⟩, ⟨key, .reserved⟩ :: s.guards⟩)
      | .occupied _ => .fatal

/-- Translation of `SharedSlots::get`. Out-of-range keys return `None` with
no lock taken. For an in-range key the slot is locked; on `Occupied` the call
returns an `Occupied` guard (modelled as the stored item plus a new live
guard). On `Vacant` the `return None` path drops the temporary `SlotRef`,
whose `Drop` impl relinks the key into the free list. -/
def get (s : PoolState T) (key : Nat) : Outcome (Option T × PoolState T) :=
  match s.pool.slots[key]? with
  | none => .ok (none, s)
  | some sl =>
    if s.isLocked key then .blocked
    else
      match sl with
      | .vacant _ => .ok (none, ⟨s.pool.dropSlotRef key, s.guards⟩)
      | .occupied item => .ok (some item, ⟨s.pool, ⟨key, .occupied⟩ :: s.guards⟩)

/-- Translation of `SharedSlots::take`: like `get`, but on `Occupied` the
value is removed via `Occupied::take` (the slot becomes `Vacant` with
`next = usize::MAX`) and the returned `Reserved` guard is dropped at once,
relinking the key into the free list. -/
def take (s : PoolState T) (key : Nat) : Outcome (Option T × PoolState T) :=
  match s.pool.slots[key]? with
  | none => .ok (none, s)
  | some sl =>
    if s.isLocked key then .blocked
    else
      match sl with
      | .vacant _ => .ok (none, ⟨s.pool.dropSlotRef key, s.guards⟩)
      | .occupied item =>
        .ok (some item,
          ⟨(⟨s.pool.slots.set key (.vacant USIZE_MAX), s.pool.next_free⟩ :
             SharedSlots T).dropSlotRef key,
           s.guards⟩)

/-- Translation of `Reserved::insert`: store the item (the slot becomes
`Occupied`) and convert the live guard for key `k` into an `Occupied` guard.
The lock is kept throughout. -/
def reservedInsert (s : PoolState T) (k : Nat) (item : T) : PoolState T :=
  ⟨⟨s.pool.slots.set k (.occupied item), s.pool.next_free⟩,
   s.guards.map (fun g => if g.key = k then ⟨k, .occupied⟩ else g)⟩

/-- Translation of `Occupied::take`: remove the value (the slot becomes
`Vacant { next: usize::MAX }`) and convert the live guard for key `k` into a
`Reserved` guard. -/
def occupiedTake (s : PoolState T) (k : Nat) : PoolState T :=
  ⟨⟨s.pool.slots.set k (.vacant USIZE_MAX), s.pool.next_free⟩,
   s.guards.map (fun g => if g.key = k then ⟨k, .reserved⟩ else g)⟩

/-- Translation of `SharedSlots::insert`:
`Some(self.reserve()?.insert(item).key())` — reserve, populate, and drop the
resulting `Occupied` guard (whose drop performs no free-list action). -/
def insert (s : PoolState T) (item : T) : Outcome (Option Nat × PoolState T) :=
  match s.reserve with
  | .ok (none, s1) => .ok (none, s1)
  | .ok (some k, s1) => .ok (some k, ((s1.reservedInsert k item).dropGuard k))
  | .blocked => .blocked
  | .fatal => .fatal

end PoolState

/-- Translation of `SharedSlots::new(capacity)`: all slots `Vacant`,
pre-linked `0 → 1 → … → capacity` (the last `next` is the out-of-range
sentinel `capacity`), head `0`, and no live guards. -/
def initState (T : Type) (capacity : Nat) : PoolState T :=
  ⟨⟨(List.range capacity).map (fun i => .vacant (i + 1)), 0⟩, []⟩

/-- One atomic public operation of the pool, as a transition between pool
states. Guard-typed operations (`Reserved::insert`, `Occupied::take`,
dropping a guard) require the acted-on guard to be live. Operations whose
outcome is `blocked` or `fatal` produce no transition. -/
inductive Step (T : Type) : PoolState T → PoolState T → Prop where
  | reserve {s s' : PoolState T} {r : Option Nat} :
      s.reserve = .ok (r, s') → Step T s s'
  | get {s s' : PoolState T} {k : Nat} {r : Option T} :
      s.get k = .ok (r, s') → Step T s s'
  | take {s s' : PoolState T} {k : Nat} {r : Option T} :
      s.take k = .ok (r, s') → Step T s s'
  | insert {s s' : PoolState T} {v : T} {r : Option Nat} :
      s.insert v = .ok (r, s') → Step T s s'
  | reservedInsert {s : PoolState T} {k : Nat} {v : T} :
      (⟨k, .reserved⟩ : Guard) ∈ s.guards → Step T s (s.reservedInsert k v)
  | occupiedTake {s : PoolState T} {k : Nat} :
      (⟨k, .occupied⟩ : Guard) ∈ s.guards → Step T s (s.occupiedTake k)
  | dropGuard {s : PoolState T} {g : Guard} :
      g ∈ s.guards → Step T s (s.dropGuard g.key)

/-- States reachable from a freshly built pool of the given capacity by any
sequence of public operations. -/
def Reachable (T : Type) (capacity : Nat) (s : PoolState T) : Prop :=
  Relation.ReflTransGen (Step T) (initState T capacity) s

/-- Restricted transition: like `Step`, but `get` and `take` are only invoked
on keys that are out of range or whose slot is not currently `Vacant`. -/
inductive StepR (T : Type) : PoolState T → PoolState T → Prop where
  | reserve {s s' : PoolState T} {r : Option Nat} :
      s.reserve = .ok (r, s') → StepR T s s'
  | get {s s' : PoolState T} {k : Nat} {r : Option T} :
      (∀ n, s.pool.slots[k]? ≠ some (.vacant n)) →
      s.get k = .ok (r, s') → StepR T s s'
  | take {s s' : PoolState T} {k : Nat} {r : Option T} :
      (∀ n, s.pool.slots[k]? ≠ some (.vacant n)) →
      s.take k = .ok (r, s') → StepR T s s'
  | insert {s s' : PoolState T} {v : T} {r : Option Nat} :
      s.insert v = .ok (r, s') → StepR T s s'
  | reservedInsert {s : PoolState T} {k : Nat} {v : T} :
      (⟨k, .reserved⟩ : Guard) ∈ s.guards → StepR T s (s.reservedInsert k v)
  | occupiedTake {s : PoolState T} {k : Nat} :
      (⟨k, .occupied⟩ : Guard) ∈ s.guards → StepR T s (s.occupiedTake k)
  | dropGuard {s : PoolState T} {g : Guard} :
      g ∈ s.guards → StepR T s (s.dropGuard g.key)

/-- States reachable when `get`/`take` are never invoked on an in-range
currently-`Vacant` key. -/
def ReachableR (T : Type) (capacity : Nat) (s : PoolState T) : Prop :=
  Relation.ReflTransGen (StepR T) (initState T capacity) s

/-- The free-list chain: `Chain slots h L` holds when following `next` links
from `h` traverses exactly the keys in `L` (in order) and stops at the first
out-of-range (sentinel) key. -/
inductive Chain {T : Type} (slots : List (Slot T)) : Nat → List Nat → Prop where
  | nil {h : Nat} : slots.length ≤ h → Chain slots h []
  | cons {h next : Nat} {l : List Nat} :
      slots[h]? = some (.vacant next) → Chain slots next l → Chain slots h (h :: l)

/-- The free-list integrity invariant: following `next` links from the head
visits, without repetition, exactly the in-range keys whose slot is `Vacant`
and whose mutex is not held by a live guard, and terminates at an
out-of-range sentinel. -/
def FreeListInv {T : Type} (s : PoolState T) : Prop :=
  ∃ L, Chain s.pool.slots s.pool.next_free L ∧ L.Nodup ∧
    ∀ k, k ∈ L ↔ ((∃ n, s.pool.slots[k]? = some (.vacant n)) ∧ k ∉ s.guardKeys)

/-- Structural well-formedness of a pool state, maintained by every public
operation: live guards hold pairwise-distinct in-range keys (each guard owns
its slot's mutex, and a mutex has at most one owner), and the slot under an
`Occupied` guard holds a value. -/
structure WF {T : Type} (s : PoolState T) : Prop where
  nodup : s.guardKeys.Nodup
  keys_lt : ∀ g ∈ s.guards, g.key < s.pool.slots.length
  occG : ∀ k, (⟨k, .occupied⟩ : Guard) ∈ s.guards → ∃ v, s.pool.slots[k]? = some (.occupied v)

/-- Live guards after `k` successful `reserve` calls on a fresh pool: keys
`k-1, …, 1, 0`, most recent first. -/
def reservedChain (k : Nat) : List Guard :=
  (List.range k).reverse.map (fun i => ⟨i, .reserved⟩)

/-- The pool state after `k` successful `reserve` calls on a fresh pool of
capacity `N`: slot contents untouched, head advanced to `k`, and `k` live
`Reserved` guards. -/
def afterReserves (T : Type) (N k : Nat) : PoolState T :=
  ⟨⟨(List.range N).map (fun i => .vacant (i + 1)), k⟩, reservedChain k⟩

/-! ### Helper lemmas on `Nat.xor` -/

/-- Bitwise xor distributes over the binary digit decomposition. -/
theorem xor_two_mul_add (q p r s : Nat) (hr : r < 2) (hs : s < 2) :
    (2 * q + r) ^^^ (2 * p + s) = 2 * (q ^^^ p) + (r ^^^ s) := by
  apply Nat.eq_of_testBit_eq
  intro i
  cases i with
  | zero =>
    rw [Nat.testBit_xor]
    simp only [Nat.testBit_zero]
    interval_cases r <;> interval_cases s <;>
      simp [Nat.mul_add_mod, Nat.mul_mod_right, Nat.add_mod, Nat.mul_mod]
  | succ i =>
    rw [Nat.testBit_xor, ← Nat.testBit_div_two, ← Nat.testBit_div_two, ← Nat.testBit_div_two]
    have h1 : (2 * q + r) / 2 = q := by omega
    have h2 : (2 * p + s) / 2 = p := by omega
    have h3 : (2 * (q ^^^ p) + (r ^^^ s)) / 2 = q ^^^ p := by
      have : r ^^^ s < 2 := by interval_cases r <;> interval_cases s <;> decide
      omega
    rw [h1, h2, h3, Nat.testBit_xor]

/-- Xor with the all-ones word is complement. -/
theorem xor_two_pow_sub_one : ∀ (n : Nat), ∀ a < 2 ^ n, a ^^^ (2 ^ n - 1) = 2 ^ n - 1 - a := by
  intro n
  induction n with
  | zero => intro a ha; interval_cases a; decide
  | succ n ih =>
    intro a ha
    have hq : a / 2 < 2 ^ n := by
      have := Nat.pow_succ 2 n ▸ ha; omega
    have key := ih (a / 2) hq
    have ha2 : a = 2 * (a / 2) + a % 2 := by omega
    have hm : 2 ^ (n + 1) - 1 = 2 * (2 ^ n - 1) + 1 := by
      have : 1 ≤ 2 ^ n := Nat.one_le_two_pow
      rw [Nat.pow_succ]; omega
    rw [hm, ha2, xor_two_mul_add _ _ _ _ (Nat.mod_lt _ (by omega)) (by omega), key]
    have hx : a % 2 ^^^ 1 = 1 - a % 2 := by
      have : a % 2 < 2 := Nat.mod_lt _ (by omega)
      interval_cases h : a % 2 <;> decide
    rw [hx]
    have : 1 ≤ 2 ^ n := Nat.one_le_two_pow
    omega

/-! ### Claims C7, C8, C9, C10 -/

/-- C7. The claim states that for every window width `N ≥ 1` and every
reachable window state, once `insert(i)` has returned `true`, every later
`insert(i)` returns `false`. The code violates this for even widths: on
`Window::<4>` starting fresh, `insert(256)` slides the window and stores the
bit in word `N/2 + 1 = 3` (the position consistent with the `first_index`
shift would be word `N - N/2 = 2`), so it returns `true`; the immediately
repeated `insert(256)` examines word 2, finds the bit clear, and returns
`true` again, reporting the duplicate as new. This contradicts the function's
own documentation ("If the index has been inserted before, the insert will
return false"), whose sliding arithmetic is consistent only for odd `N`
(the crate's expansion tests all use odd widths). -/
theorem C7_window_even_width_misses_duplicate :
    (Window.insert 4 ⟨[0, 0, 0, 0], 0⟩ 256).bind
      (fun r => (Window.insert 4 r.2 256).map (fun r2 => (r.1, r2.1))) =
    some (true, true) := by decide

/-- C8. The claim states that for every `u64` value `v`, `encode_varint`
writes `len ∈ [1, 9]` bytes and `decode_varint` on those bytes returns
`Some(v)` without panicking. The encoder is fine (witness the documented
encoding of 456), but `decode_varint_unchecked` declares `let mut buf = [0; 8]`
and ends with `u64::from_be_bytes(buf[1..].try_into().unwrap())`: `buf[1..]`
has 7 bytes, so the `try_into` to `[u8; 8]` fails and the `unwrap` panics on
every input (for 9-byte varints the `usize` subtraction `8 - len` already
underflows). This contradicts the module's own tests (`read_knowns`,
`roundtrips`), which require the round trip to succeed; the intended buffer
is evidently `[0; 9]` with offset `9 - len`. `none` is the model's panic
value. -/
theorem C8_decode_varint_panics :
    encode_varint 0 = [0] ∧ decode_varint [0] = none ∧
    encode_varint 456 = [129, 200] ∧ decode_varint [129, 200] = none ∧
    decode_varint (List.replicate 9 255) = none := by decide

/-- C9, counterexample. The claim states that for every width `N ≥ 1` and
every state, `insert(i)` terminates and returns the boolean `can_insert(i)`
returned on the same state. On `Window::<1>` fresh, `can_insert(64)` is
`true`, but `insert(64)` takes the expansion branch and indexes
`self.map[N / 2 + 1] = self.map[1]`, out of bounds for the 1-word map: the
code panics instead of returning a boolean (`none` is the model's panic
value), so the claim fails at `N = 1` (and likewise at `N = 2`). -/
theorem C9_counterexample :
    Window.can_insert 1 ⟨[0], 0⟩ 64 = true ∧ Window.insert 1 ⟨[0], 0⟩ 64 = none := by decide

/-- C9, amended: for every width `N ≥ 3`, every window state whose word array
has length `N`, and every index, `insert` terminates normally and returns
exactly the boolean `can_insert` returns on the same pre-insert state. -/
theorem C9_can_insert_predicts_insert : ∀ N, 3 ≤ N → ∀ w : Window, w.map.length = N → ∀ i,
    ∃ w', Window.insert N w i = some (Window.can_insert N w i, w') := by
  intro N hN w hlen i
  unfold Window.insert Window.can_insert
  by_cases hlt : i < w.first_index
  · exact ⟨w, by rw [if_pos hlt, if_pos hlt]⟩
  · rw [if_neg hlt, if_neg hlt]
    set adjusted := i - w.first_index
    set wi := adjusted / 64 with hwi
    set off := adjusted % 64 with hoff
    by_cases hge : N ≤ wi
    · rw [if_pos hge, if_pos hge]
      set gap := wi - N
      set keep := N / 2 + 1 - gap with hkeep
      set m' := w.map.drop (N - keep) ++ List.replicate (N - keep) 0 with hm'
      have hkeepN : keep ≤ N := by omega
      have hlen' : m'.length = N := by
        rw [hm', List.length_append, List.length_drop, List.length_replicate, hlen]
        omega
      have hidx : N / 2 + 1 < m'.length := by omega
      unfold Window.insertTail
      rw [dif_pos hidx]
      have hdroplen : (w.map.drop (N - keep)).length = keep := by
        rw [List.length_drop, hlen]; omega
      have hword : m'.get ⟨N / 2 + 1, hidx⟩ = 0 := by
        have h1 : m'[N / 2 + 1]? = some 0 := by
          rw [hm', List.getElem?_append_right (by omega)]
          rw [List.getElem?_replicate, if_pos (by omega)]
        have h2 : m'[N / 2 + 1]? = some (m'.get ⟨N / 2 + 1, hidx⟩) := by
          simp [List.getElem?_eq_getElem hidx]
        rw [h1] at h2
        exact (Option.some_inj.mp h2).symm
      rw [hword]
      simp
    · rw [if_neg hge, if_neg hge]
      have hidx : wi < w.map.length := by omega
      unfold Window.insertTail
      rw [dif_pos hidx]
      have hgetD : w.map.getD wi 0 = w.map.get ⟨wi, hidx⟩ := by
        simp [List.getD, List.getElem?_eq_getElem hidx]
      rw [hgetD]
      simp

/-- C9, witness: the amended theorem applied on `Window::<3>` fresh at
index 5. -/
theorem C9_witness :
    ∃ w', Window.insert 3 ⟨[0, 0, 0], 0⟩ 5 = some (Window.can_insert 3 ⟨[0, 0, 0], 0⟩ 5, w') :=
  C9_can_insert_predicts_insert 3 (by decide) ⟨[0, 0, 0], 0⟩ (by decide) 5

/-- C10. Zigzag round trip: for every in-range `i64` value `s`,
`zigzag_decode(zigzag_encode(s)) = s`. -/
theorem C10_zigzag_round_trip : ∀ v : Int, -(2 ^ 63) ≤ v → v < 2 ^ 63 →
    zigzag_decode (zigzag_encode v) = v := by
  intro v hlo hhi
  have hU : ((U64_MOD : Nat) : Int) = 18446744073709551616 := by norm_num [U64_MOD]
  have hpat1 : toPat (-1) = 2 ^ 64 - 1 := by
    unfold toPat; rw [hU]; omega
  have hpat0 : toPat 0 = 0 := by
    unfold toPat; rw [hU]; omega
  by_cases hneg : v < 0
  · have hmod : toPat (v * 2) = (v * 2 + 18446744073709551616).toNat := by
      unfold toPat; rw [hU]; congr 1; omega
    set b := (v * 2 + 18446744073709551616).toNat with hbdef
    have hbv : (b : Int) = v * 2 + 18446744073709551616 := by omega
    have hb_lt : b < 2 ^ 64 := by omega
    have hb_even : b % 2 = 0 := by omega
    simp only [zigzag_encode, if_pos hneg, hpat1, hmod]
    have hxor1 : (2 ^ 64 - 1) ^^^ b = 2 ^ 64 - 1 - b := by
      rw [Nat.xor_comm]; exact xor_two_pow_sub_one 64 b hb_lt
    rw [hxor1]
    set u := 2 ^ 64 - 1 - b with hudef
    have hu_odd : u % 2 = 1 := by omega
    simp only [zigzag_decode, hu_odd]
    have h1c : (-((1 : Nat) : Int)) = -1 := by norm_num
    rw [h1c, hpat1]
    have hxor2 : (u / 2) ^^^ (2 ^ 64 - 1) = 2 ^ 64 - 1 - u / 2 :=
      xor_two_pow_sub_one 64 (u / 2) (by omega)
    rw [hxor2]
    unfold fromPat
    rw [if_neg (by omega)]
    rw [hU]
    omega
  · have hmod : toPat (v * 2) = (v * 2).toNat := by
      unfold toPat; rw [hU]; congr 1; omega
    set b := (v * 2).toNat with hbdef
    have hbv : (b : Int) = v * 2 := by omega
    have hb_even : b % 2 = 0 := by omega
    simp only [zigzag_encode, if_neg hneg, hpat0, hmod, Nat.zero_xor]
    simp only [zigzag_decode, hb_even]
    have h0c : (-((0 : Nat) : Int)) = 0 := by norm_num
    rw [h0c, hpat0, Nat.xor_zero]
    unfold fromPat
    rw [if_pos (by omega)]
    omega

/-- C10, witness: the round trip evaluated at `-5`. -/
theorem C10_witness : zigzag_decode (zigzag_encode (-5)) = -5 :=
  C10_zigzag_round_trip (-5) (by norm_num) (by norm_num)

/-! ### Slot pool: case analyses of the public operations -/

namespace PoolState

variable {T : Type}

theorem isLocked_false_iff {s : PoolState T} {k : Nat} :
    s.isLocked k = false ↔ ∀ g ∈ s.guards, g.key ≠ k := by
  simp [PoolState.isLocked, List.any_eq_true]

theorem guardKeys_mem {s : PoolState T} {k : Nat} :
    k ∈ s.guardKeys ↔ ∃ g ∈ s.guards, g.key = k := by
  simp [PoolState.guardKeys]

theorem isLocked_false_iff_not_mem {s : PoolState T} {k : Nat} :
    s.isLocked k = false ↔ k ∉ s.guardKeys := by
  rw [isLocked_false_iff, guardKeys_mem]
  constructor
  · rintro h ⟨g, hg, rfl⟩; exact h g hg rfl
  · intro h g hg hk; exact h ⟨g, hg, hk⟩

theorem reserve_ok_cases {s s' : PoolState T} {r : Option Nat}
    (h : s.reserve = .ok (r, s')) :
    (s.pool.slots[s.pool.next_free]? = none ∧ r = none ∧ s' = s) ∨
    (∃ next, s.pool.slots[s.pool.next_free]? = some (.vacant next) ∧
      s.isLocked s.pool.next_free = false ∧
      r = some s.pool.next_free ∧
      s' = ⟨⟨s.pool.slots, next⟩, ⟨s.pool.next_free, .reserved⟩ :: s.guards⟩) := by
  simp only [PoolState.reserve] at h
  split at h
  · left; cases h; exact ⟨by assumption, rfl, rfl⟩
  · rename_i sl hsl
    split at h
    · cases h
    · split at h
      · rename_i next
        cases h
        right
        exact ⟨next, hsl, by simp_all, rfl, rfl⟩
      · cases h

theorem get_ok_cases {s s' : PoolState T} {k : Nat} {r : Option T}
    (h : s.get k = .ok (r, s')) :
    (s.pool.slots[k]? = none ∧ r = none ∧ s' = s) ∨
    (∃ n, s.pool.slots[k]? = some (.vacant n) ∧ s.isLocked k = false ∧ r = none ∧
      s' = ⟨⟨s.pool.slots.set k (.vacant s.pool.next_free), k⟩, s.guards⟩) ∨
    (∃ v, s.pool.slots[k]? = some (.occupied v) ∧ s.isLocked k = false ∧ r = some v ∧
      s' = ⟨s.pool, ⟨k, .occupied⟩ :: s.guards⟩) := by
  simp only [PoolState.get] at h
  split at h
  · left; cases h; exact ⟨by assumption, rfl, rfl⟩
  · rename_i sl hsl
    split at h
    · cases h
    · split at h
      · rename_i n
        cases h
        right; left
        refine ⟨n, hsl, by simp_all, rfl, ?_⟩
        unfold SharedSlots.dropSlotRef
        rw [hsl]
      · rename_i v
        cases h
        right; right
        exact ⟨v, hsl, by simp_all, rfl, rfl⟩

theorem take_ok_cases {s s' : PoolState T} {k : Nat} {r : Option T}
    (h : s.take k = .ok (r, s')) :
    (s.pool.slots[k]? = none ∧ r = none ∧ s' = s) ∨
    (∃ n, s.pool.slots[k]? = some (.vacant n) ∧ s.isLocked k = false ∧ r = none ∧
      s' = ⟨⟨s.pool.slots.set k (.vacant s.pool.next_free), k⟩, s.guards⟩) ∨
    (∃ v, s.pool.slots[k]? = some (.occupied v) ∧ s.isLocked k = false ∧ r = some v ∧
      s' = ⟨⟨s.pool.slots.set k (.vacant s.pool.next_free), k⟩, s.guards⟩) := by
  simp only [PoolState.take] at h
  split at h
  · left; cases h; exact ⟨by assumption, rfl, rfl⟩
  · rename_i sl hsl
    have hk : k < s.pool.slots.length := by
      by_contra hk
      rw [List.getElem?_eq_none (by omega)] at hsl
      cases hsl
    split at h
    · cases h
    · split at h
      · rename_i n
        cases h
        right; left
        refine ⟨n, hsl, by simp_all, rfl, ?_⟩
        unfold SharedSlots.dropSlotRef
        rw [hsl]
      · rename_i v
        cases h
        right; right
        refine ⟨v, hsl, by simp_all, rfl, ?_⟩
        unfold SharedSlots.dropSlotRef
        rw [List.getElem?_set_self (by simpa using hk)]
        simp [List.set_set]

end PoolState

namespace PoolState

variable {T : Type}

theorem map_kind_id {gs : List Guard} {k : Nat} {x : Guard}
    (h : ∀ g ∈ gs, g.key ≠ k) :
    gs.map (fun g => if g.key = k then x else g) = gs := by
  rw [List.map_congr_left (fun g hg => if_neg (h g hg))]
  exact List.map_id gs

theorem filter_key_id {gs : List Guard} {k : Nat}
    (h : ∀ g ∈ gs, g.key ≠ k) :
    gs.filter (fun g => !(g.key == k)) = gs := by
  apply List.filter_eq_self.mpr
  intro g hg
  simpa using h g hg

theorem insert_ok_cases {s s' : PoolState T} {v : T} {r : Option Nat}
    (h : s.insert v = .ok (r, s')) :
    (s.pool.slots[s.pool.next_free]? = none ∧ r = none ∧ s' = s) ∨
    (∃ next, s.pool.slots[s.pool.next_free]? = some (.vacant next) ∧
      s.isLocked s.pool.next_free = false ∧
      r = some s.pool.next_free ∧
      s' = ⟨⟨s.pool.slots.set s.pool.next_free (.occupied v), next⟩, s.guards⟩) := by
  unfold PoolState.insert at h
  split at h
  · rename_i s1 hres
    cases h
    rcases reserve_ok_cases hres with ⟨h1, _, rfl⟩ | ⟨next, h1, h2, h3, h4⟩
    · left; exact ⟨h1, rfl, rfl⟩
    · cases h3
  · rename_i k s1 hres
    cases h
    rcases reserve_ok_cases hres with ⟨h1, h2, _⟩ | ⟨next, h1, h2, h3, h4⟩
    · cases h2
    · right
      cases h3
      refine ⟨next, h1, h2, rfl, ?_⟩
      have hng : ∀ g ∈ s.guards, g.key ≠ s.pool.next_free := isLocked_false_iff.mp h2
      subst h4
      unfold PoolState.dropGuard PoolState.reservedInsert
      simp only
      congr 1
      · unfold SharedSlots.dropSlotRef
        have hk : s.pool.next_free < s.pool.slots.length := by
          by_contra hk
          rw [List.getElem?_eq_none (by omega)] at h1
          cases h1
        rw [List.getElem?_set_self (by simpa using hk)]
      · rw [List.map_cons, if_pos rfl, map_kind_id hng]
        rw [List.filter_cons]
        simp only [beq_self_eq_true, Bool.not_true, Bool.false_eq_true, if_false]
        exact filter_key_id hng
  · cases h
  · cases h

end PoolState


namespace PoolState

variable {T : Type}

theorem wf_reserve {s s' : PoolState T} {r : Option Nat}
    (hwf : WF s) (h : s.reserve = .ok (r, s')) : WF s' := by
  rcases reserve_ok_cases h with ⟨_, _, rfl⟩ | ⟨next, h1, h2, _, rfl⟩
  · exact hwf
  · have hk : s.pool.next_free < s.pool.slots.length := by
      by_contra hk
      rw [List.getElem?_eq_none (by omega)] at h1
      cases h1
    refine ⟨?_, ?_, ?_⟩
    · simp only [PoolState.guardKeys, List.map_cons, List.nodup_cons]
      exact ⟨isLocked_false_iff_not_mem.mp h2, hwf.nodup⟩
    · intro g hg
      rw [List.mem_cons] at hg
      rcases hg with rfl | hg
      · exact hk
      · exact hwf.keys_lt g hg
    · intro j hj
      rw [List.mem_cons] at hj
      rcases hj with hj | hj
      · simp at hj
      · exact hwf.occG j hj

theorem wf_get {s s' : PoolState T} {k : Nat} {r : Option T}
    (hwf : WF s) (h : s.get k = .ok (r, s')) : WF s' := by
  rcases get_ok_cases h with ⟨_, _, rfl⟩ | ⟨n, h1, h2, _, rfl⟩ | ⟨v, h1, h2, _, rfl⟩
  · exact hwf
  · have hnog := isLocked_false_iff.mp h2
    refine ⟨hwf.nodup, ?_, ?_⟩
    · intro g hg
      rw [List.length_set]
      exact hwf.keys_lt g hg
    · intro j hj
      obtain ⟨v, hv⟩ := hwf.occG j hj
      refine ⟨v, ?_⟩
      rw [List.getElem?_set_ne (fun he => hnog _ hj he.symm) , hv]
  · have hk : k < s.pool.slots.length := by
      by_contra hk
      rw [List.getElem?_eq_none (by omega)] at h1
      cases h1
    refine ⟨?_, ?_, ?_⟩
    · simp only [PoolState.guardKeys, List.map_cons, List.nodup_cons]
      exact ⟨isLocked_false_iff_not_mem.mp h2, hwf.nodup⟩
    · intro g hg
      rw [List.mem_cons] at hg
      rcases hg with rfl | hg
      · exact hk
      · exact hwf.keys_lt g hg
    · intro j hj
      rw [List.mem_cons] at hj
      rcases hj with hj | hj
      · simp only [Guard.mk.injEq] at hj
        rcases hj with ⟨rfl, -⟩
        exact ⟨v, h1⟩
      · exact hwf.occG j hj

theorem wf_take {s s' : PoolState T} {k : Nat} {r : Option T}
    (hwf : WF s) (h : s.take k = .ok (r, s')) : WF s' := by
  rcases take_ok_cases h with ⟨_, _, rfl⟩ | ⟨n, h1, h2, _, rfl⟩ | ⟨v, h1, h2, _, rfl⟩ <;>
    [skip; skip; skip]
  · exact hwf
  · have hnog := isLocked_false_iff.mp h2
    refine ⟨hwf.nodup, ?_, ?_⟩
    · intro g hg
      rw [List.length_set]
      exact hwf.keys_lt g hg
    · intro j hj
      obtain ⟨v, hv⟩ := hwf.occG j hj
      refine ⟨v, ?_⟩
      rw [List.getElem?_set_ne (fun he => hnog _ hj he.symm), hv]
  · have hnog := isLocked_false_iff.mp h2
    refine ⟨hwf.nodup, ?_, ?_⟩
    · intro g hg
      rw [List.length_set]
      exact hwf.keys_lt g hg
    · intro j hj
      obtain ⟨w, hw⟩ := hwf.occG j hj
      refine ⟨w, ?_⟩
      rw [List.getElem?_set_ne (fun he => hnog _ hj he.symm), hw]

theorem wf_insert {s s' : PoolState T} {v : T} {r : Option Nat}
    (hwf : WF s) (h : s.insert v = .ok (r, s')) : WF s' := by
  rcases insert_ok_cases h with ⟨_, _, rfl⟩ | ⟨next, h1, h2, _, rfl⟩
  · exact hwf
  · have hnog := isLocked_false_iff.mp h2
    refine ⟨hwf.nodup, ?_, ?_⟩
    · intro g hg
      rw [List.length_set]
      exact hwf.keys_lt g hg
    · intro j hj
      obtain ⟨w, hw⟩ := hwf.occG j hj
      refine ⟨w, ?_⟩
      rw [List.getElem?_set_ne (fun he => hnog _ hj he.symm), hw]

theorem guardKeys_map_kind {s : PoolState T} {k : Nat} {x : GuardKind} :
    (s.guards.map (fun g => if g.key = k then (⟨k, x⟩ : Guard) else g)).map
      (fun g => g.key) = s.guardKeys := by
  unfold PoolState.guardKeys
  rw [List.map_map]
  apply List.map_congr_left
  intro g _
  by_cases hk : g.key = k
  · simp [hk]
  · simp [hk]

theorem wf_reservedInsert {s : PoolState T} {k : Nat} {v : T}
    (hwf : WF s) (hg : (⟨k, .reserved⟩ : Guard) ∈ s.guards) :
    WF (s.reservedInsert k v) := by
  have hk : k < s.pool.slots.length := hwf.keys_lt _ hg
  refine ⟨?_, ?_, ?_⟩
  · show ((s.guards.map _).map _).Nodup
    rw [guardKeys_map_kind]
    exact hwf.nodup
  · intro g hgm
    simp only [PoolState.reservedInsert] at hgm ⊢
    rw [List.mem_map] at hgm
    obtain ⟨g0, hg0, hge⟩ := hgm
    simp only [List.length_set]
    by_cases he : g0.key = k
    · rw [if_pos he] at hge
      rw [← hge]
      exact he ▸ hwf.keys_lt g0 hg0
    · rw [if_neg he] at hge
      exact hge ▸ hwf.keys_lt g0 hg0
  · intro j hj
    simp only [PoolState.reservedInsert] at hj ⊢
    rw [List.mem_map] at hj
    obtain ⟨g0, hg0, hge⟩ := hj
    by_cases he : g0.key = k
    · rw [if_pos he] at hge
      have : j = k := by cases hge; rfl
      subst this
      exact ⟨v, List.getElem?_set_self hk⟩
    · rw [if_neg he] at hge
      subst hge
      obtain ⟨w, hw⟩ := hwf.occG _ hg0
      exact ⟨w, by rw [List.getElem?_set_ne (fun hh => he hh.symm), hw]⟩

theorem wf_occupiedTake {s : PoolState T} {k : Nat}
    (hwf : WF s) :
    WF (s.occupiedTake k) := by
  refine ⟨?_, ?_, ?_⟩
  · show ((s.guards.map _).map _).Nodup
    rw [guardKeys_map_kind]
    exact hwf.nodup
  · intro g hgm
    simp only [PoolState.occupiedTake] at hgm ⊢
    rw [List.mem_map] at hgm
    obtain ⟨g0, hg0, hge⟩ := hgm
    simp only [List.length_set]
    by_cases he : g0.key = k
    · rw [if_pos he] at hge
      rw [← hge]
      exact he ▸ hwf.keys_lt g0 hg0
    · rw [if_neg he] at hge
      exact hge ▸ hwf.keys_lt g0 hg0
  · intro j hj
    simp only [PoolState.occupiedTake] at hj ⊢
    rw [List.mem_map] at hj
    obtain ⟨g0, hg0, hge⟩ := hj
    by_cases he : g0.key = k
    · rw [if_pos he] at hge
      cases hge
    · rw [if_neg he] at hge
      subst hge
      obtain ⟨w, hw⟩ := hwf.occG _ hg0
      exact ⟨w, by rw [List.getElem?_set_ne (fun hh => he hh.symm), hw]⟩

theorem dropSlotRef_length {p : SharedSlots T} {k : Nat} :
    (p.dropSlotRef k).slots.length = p.slots.length := by
  unfold SharedSlots.dropSlotRef
  split <;> simp [List.length_set]

theorem dropSlotRef_getElem_ne {p : SharedSlots T} {k j : Nat} (h : j ≠ k) :
    (p.dropSlotRef k).slots[j]? = p.slots[j]? := by
  unfold SharedSlots.dropSlotRef
  split
  · exact List.getElem?_set_ne (fun hh => h hh.symm)
  · rfl

theorem wf_dropGuard {s : PoolState T} {k : Nat} (hwf : WF s) :
    WF (s.dropGuard k) := by
  refine ⟨?_, ?_, ?_⟩
  · exact ((List.filter_sublist s.guards).map _).nodup hwf.nodup
  · intro g hgm
    simp only [PoolState.dropGuard] at hgm ⊢
    rw [List.mem_filter] at hgm
    rw [dropSlotRef_length]
    exact hwf.keys_lt g hgm.1
  · intro j hj
    simp only [PoolState.dropGuard] at hj ⊢
    rw [List.mem_filter] at hj
    obtain ⟨hj1, hj2⟩ := hj
    have hjk : j ≠ k := by simpa using hj2
    obtain ⟨w, hw⟩ := hwf.occG j hj1
    exact ⟨w, by rw [dropSlotRef_getElem_ne hjk, hw]⟩

end PoolState

namespace PoolState

variable {T : Type}

theorem wf_step {s s' : PoolState T} (h : Step T s s') (hwf : WF s) : WF s' := by
  cases h with
  | reserve h => exact wf_reserve hwf h
  | get h => exact wf_get hwf h
  | take h => exact wf_take hwf h
  | insert h => exact wf_insert hwf h
  | reservedInsert hg => exact wf_reservedInsert hwf hg
  | occupiedTake hg => exact wf_occupiedTake hwf
  | dropGuard hg => exact wf_dropGuard hwf

theorem wf_init {N : Nat} : WF (initState T N) := by
  refine ⟨List.nodup_nil, ?_, ?_⟩
  · intro g hg; cases hg
  · intro k hk; cases hk

theorem wf_reachable {N : Nat} {s : PoolState T} (h : Reachable T N s) : WF s := by
  induction h with
  | refl => exact wf_init
  | tail _ hstep ih => exact wf_step hstep ih

theorem step_slots_length {s s' : PoolState T} (h : Step T s s') :
    s'.pool.slots.length = s.pool.slots.length := by
  cases h with
  | reserve h =>
    rcases reserve_ok_cases h with ⟨_, _, rfl⟩ | ⟨next, _, _, _, rfl⟩ <;> rfl
  | get h =>
    rcases get_ok_cases h with ⟨_, _, rfl⟩ | ⟨n, _, _, _, rfl⟩ | ⟨v, _, _, _, rfl⟩ <;>
      simp [List.length_set]
  | take h =>
    rcases take_ok_cases h with ⟨_, _, rfl⟩ | ⟨n, _, _, _, rfl⟩ | ⟨v, _, _, _, rfl⟩ <;>
      simp [List.length_set]
  | insert h =>
    rcases insert_ok_cases h with ⟨_, _, rfl⟩ | ⟨next, _, _, _, rfl⟩ <;>
      simp [List.length_set]
  | reservedInsert hg => simp [PoolState.reservedInsert, List.length_set]
  | occupiedTake hg => simp [PoolState.occupiedTake, List.length_set]
  | dropGuard hg => simp [PoolState.dropGuard, dropSlotRef_length]

theorem reachable_slots_length {N : Nat} {s : PoolState T} (h : Reachable T N s) :
    s.pool.slots.length = N := by
  induction h with
  | refl => simp [initState]
  | tail _ hstep ih => rw [step_slots_length hstep, ih]

end PoolState

/-! ### Slot pool: free-list chain lemmas -/

namespace PoolState

variable {T : Type}

theorem step_of_stepR {s s' : PoolState T} (h : StepR T s s') : Step T s s' := by
  cases h with
  | reserve h => exact Step.reserve h
  | get _ h => exact Step.get h
  | take _ h => exact Step.take h
  | insert h => exact Step.insert h
  | reservedInsert hg => exact Step.reservedInsert hg
  | occupiedTake hg => exact Step.occupiedTake hg
  | dropGuard hg => exact Step.dropGuard hg

theorem reachable_of_reachableR {N : Nat} {s : PoolState T} (h : ReachableR T N s) :
    Reachable T N s :=
  Relation.ReflTransGen.mono (fun _ _ => step_of_stepR) h

theorem chain_set_not_mem {slots : List (Slot T)} {k : Nat} {a : Slot T} {h0 : Nat}
    {L : List Nat} (hk : k ∉ L) (hc : Chain slots h0 L) : Chain (slots.set k a) h0 L := by
  induction hc with
  | nil hlen => exact Chain.nil (by simpa [List.length_set] using hlen)
  | cons hget hch ih =>
    rename_i h1 next1 l1
    rw [List.mem_cons, not_or] at hk
    refine Chain.cons ?_ (ih hk.2)
    rw [List.getElem?_set_ne (show k ≠ h1 from hk.1)]
    exact hget

theorem guardKeys_dropGuard_mem {s : PoolState T} {k j : Nat} :
    j ∈ (s.dropGuard k).guardKeys ↔ j ∈ s.guardKeys ∧ j ≠ k := by
  simp only [PoolState.dropGuard, PoolState.guardKeys, List.mem_map, List.mem_filter]
  constructor
  · rintro ⟨g, ⟨hg, hne⟩, rfl⟩
    exact ⟨⟨g, hg, rfl⟩, by simpa using hne⟩
  · rintro ⟨⟨g, hg, rfl⟩, hne⟩
    exact ⟨g, ⟨hg, by simpa using hne⟩, rfl⟩

theorem guardKeys_reservedInsert {s : PoolState T} {k : Nat} {v : T} :
    (s.reservedInsert k v).guardKeys = s.guardKeys :=
  guardKeys_map_kind

theorem guardKeys_occupiedTake {s : PoolState T} {k : Nat} :
    (s.occupiedTake k).guardKeys = s.guardKeys :=
  guardKeys_map_kind

theorem flv_reserve {s s' : PoolState T} {r : Option Nat}
    (h : s.reserve = .ok (r, s')) (hinv : FreeListInv s) : FreeListInv s' := by
  rcases reserve_ok_cases h with ⟨_, _, rfl⟩ | ⟨next, h1, h2, _, rfl⟩
  · exact hinv
  · obtain ⟨L, hc, hnd, hiff⟩ := hinv
    set k := s.pool.next_free with hkdef
    have hkmem : k ∈ L := (hiff k).mpr ⟨⟨next, h1⟩, isLocked_false_iff_not_mem.mp h2⟩
    cases hc with
    | nil hlen =>
      cases hkmem
    | cons hget hch =>
      rename_i next0 l
      have hnext0 : next0 = next := by
        rw [h1] at hget
        cases hget
        rfl
      subst hnext0
      rw [List.nodup_cons] at hnd
      refine ⟨l, hch, hnd.2, ?_⟩
      intro j
      constructor
      · intro hj
        have hjL : j ∈ k :: l := List.mem_cons_of_mem _ hj
        have hjk : j ≠ k := fun he => hnd.1 (he ▸ hj)
        obtain ⟨hvac, hkeys⟩ := (hiff j).mp hjL
        refine ⟨hvac, ?_⟩
        simp only [PoolState.guardKeys, List.map_cons, List.mem_cons]
        rintro (he | hm)
        · exact hjk he
        · exact hkeys hm
      · rintro ⟨hvac, hkeys⟩
        simp only [PoolState.guardKeys, List.map_cons, List.mem_cons, not_or] at hkeys
        have hjL := (hiff j).mpr ⟨hvac, hkeys.2⟩
        rw [List.mem_cons] at hjL
        rcases hjL with rfl | hj
        · exact absurd rfl hkeys.1
        · exact hj

theorem flv_lock_cons {s : PoolState T} {k : Nat} {kd : GuardKind}
    (h1 : ∀ n, s.pool.slots[k]? ≠ some (.vacant n))
    (hinv : FreeListInv s) :
    FreeListInv (⟨s.pool, ⟨k, kd⟩ :: s.guards⟩ : PoolState T) := by
  obtain ⟨L, hc, hnd, hiff⟩ := hinv
  refine ⟨L, hc, hnd, ?_⟩
  intro j
  rw [hiff j]
  constructor
  · rintro ⟨hvac, hkeys⟩
    have hjk : j ≠ k := by
      rintro rfl
      obtain ⟨n, hn⟩ := hvac
      exact h1 n hn
    refine ⟨hvac, ?_⟩
    simp only [PoolState.guardKeys, List.map_cons, List.mem_cons, not_or]
    exact ⟨hjk, hkeys⟩
  · rintro ⟨hvac, hkeys⟩
    simp only [PoolState.guardKeys, List.map_cons, List.mem_cons, not_or] at hkeys
    exact ⟨hvac, hkeys.2⟩

end PoolState

namespace PoolState

variable {T : Type}

theorem flv_get {s s' : PoolState T} {k : Nat} {r : Option T}
    (hres : ∀ n, s.pool.slots[k]? ≠ some (.vacant n))
    (h : s.get k = .ok (r, s')) (hinv : FreeListInv s) : FreeListInv s' := by
  rcases get_ok_cases h with ⟨_, _, rfl⟩ | ⟨n, h1, _, _, _⟩ | ⟨v, h1, h2, _, rfl⟩
  · exact hinv
  · exact absurd h1 (hres n)
  · exact flv_lock_cons (fun n hn => by rw [h1] at hn; cases hn) hinv

theorem flv_take {s s' : PoolState T} {k : Nat} {r : Option T}
    (hres : ∀ n, s.pool.slots[k]? ≠ some (.vacant n))
    (h : s.take k = .ok (r, s')) (hinv : FreeListInv s) : FreeListInv s' := by
  rcases take_ok_cases h with ⟨_, _, rfl⟩ | ⟨n, h1, _, _, _⟩ | ⟨v, h1, h2, _, rfl⟩
  · exact hinv
  · exact absurd h1 (hres n)
  · obtain ⟨L, hc, hnd, hiff⟩ := hinv
    have hk : k < s.pool.slots.length := by
      by_contra hk
      rw [List.getElem?_eq_none (by omega)] at h1
      cases h1
    have hkL : k ∉ L := by
      intro hm
      obtain ⟨⟨n, hn⟩, _⟩ := (hiff k).mp hm
      rw [h1] at hn
      cases hn
    have hkeys : k ∉ s.guardKeys := isLocked_false_iff_not_mem.mp h2
    refine ⟨k :: L,
      Chain.cons (List.getElem?_set_self (by simpa using hk)) (chain_set_not_mem hkL hc),
      List.nodup_cons.mpr ⟨hkL, hnd⟩, ?_⟩
    intro j
    by_cases hjk : j = k
    · subst hjk
      simp only [List.mem_cons, true_or, true_iff]
      exact ⟨⟨s.pool.next_free, List.getElem?_set_self (by simpa using hk)⟩, hkeys⟩
    · rw [List.mem_cons, or_iff_right hjk, hiff j]
      rw [List.getElem?_set_ne (show k ≠ j from fun he => hjk he.symm)]
      rfl

theorem flv_insert {s s' : PoolState T} {v : T} {r : Option Nat}
    (h : s.insert v = .ok (r, s')) (hinv : FreeListInv s) : FreeListInv s' := by
  rcases insert_ok_cases h with ⟨_, _, rfl⟩ | ⟨next, h1, h2, _, rfl⟩
  · exact hinv
  · obtain ⟨L, hc, hnd, hiff⟩ := hinv
    set k := s.pool.next_free with hkdef
    have hkmem : k ∈ L := (hiff k).mpr ⟨⟨next, h1⟩, isLocked_false_iff_not_mem.mp h2⟩
    cases hc with
    | nil hlen => cases hkmem
    | cons hget hch =>
      rename_i next0 l
      have hnext0 : next0 = next := by
        rw [h1] at hget
        cases hget
        rfl
      subst hnext0
      rw [List.nodup_cons] at hnd
      refine ⟨l, chain_set_not_mem hnd.1 hch, hnd.2, ?_⟩
      intro j
      by_cases hjk : j = k
      · subst hjk
        constructor
        · intro hm
          exact absurd hm hnd.1
        · rintro ⟨⟨n, hn⟩, _⟩
          rw [List.getElem?_set_self (by
            by_contra hk2
            rw [List.getElem?_eq_none (by omega)] at h1
            cases h1)] at hn
          cases hn
      · have hmem : j ∈ l ↔ j ∈ k :: l := by
          rw [List.mem_cons, or_iff_right hjk]
        rw [hmem, hiff j]
        rw [List.getElem?_set_ne (show k ≠ j from fun he => hjk he.symm)]
        rfl

theorem flv_reservedInsert {s : PoolState T} {k : Nat} {v : T}
    (hg : (⟨k, .reserved⟩ : Guard) ∈ s.guards) (hinv : FreeListInv s) :
    FreeListInv (s.reservedInsert k v) := by
  obtain ⟨L, hc, hnd, hiff⟩ := hinv
  have hkeys : k ∈ s.guardKeys := guardKeys_mem.mpr ⟨_, hg, rfl⟩
  have hkL : k ∉ L := fun hm => ((hiff k).mp hm).2 hkeys
  have hslots : (s.reservedInsert k v).pool.slots = s.pool.slots.set k (.occupied v) := rfl
  have hhead : (s.reservedInsert k v).pool.next_free = s.pool.next_free := rfl
  refine ⟨L, ?_, hnd, ?_⟩
  · rw [hslots, hhead]
    exact chain_set_not_mem hkL hc
  · intro j
    rw [guardKeys_reservedInsert, hslots]
    by_cases hjk : j = k
    · subst hjk
      constructor
      · intro hm
        exact absurd hm hkL
      · rintro ⟨⟨n, hn⟩, _⟩
        rw [List.getElem?_set, if_pos rfl] at hn
        split at hn <;> cases hn
    · rw [List.getElem?_set_ne (show k ≠ j from fun he => hjk he.symm)]
      exact hiff j

theorem flv_occupiedTake {s : PoolState T} {k : Nat}
    (hg : (⟨k, .occupied⟩ : Guard) ∈ s.guards) (hinv : FreeListInv s) :
    FreeListInv (s.occupiedTake k) := by
  obtain ⟨L, hc, hnd, hiff⟩ := hinv
  have hkeys : k ∈ s.guardKeys := guardKeys_mem.mpr ⟨_, hg, rfl⟩
  have hkL : k ∉ L := fun hm => ((hiff k).mp hm).2 hkeys
  have hslots : (s.occupiedTake k).pool.slots = s.pool.slots.set k (.vacant USIZE_MAX) := rfl
  have hhead : (s.occupiedTake k).pool.next_free = s.pool.next_free := rfl
  refine ⟨L, ?_, hnd, ?_⟩
  · rw [hslots, hhead]
    exact chain_set_not_mem hkL hc
  · intro j
    rw [guardKeys_occupiedTake, hslots]
    by_cases hjk : j = k
    · subst hjk
      constructor
      · intro hm
        exact absurd hm hkL
      · rintro ⟨_, habs⟩
        exact absurd hkeys habs
    · rw [List.getElem?_set_ne (show k ≠ j from fun he => hjk he.symm)]
      exact hiff j

theorem flv_dropGuard {s : PoolState T} {g : Guard}
    (hg : g ∈ s.guards) (hinv : FreeListInv s) : FreeListInv (s.dropGuard g.key) := by
  obtain ⟨L, hc, hnd, hiff⟩ := hinv
  set k := g.key with hkdef
  have hkeys : k ∈ s.guardKeys := guardKeys_mem.mpr ⟨_, hg, rfl⟩
  have hkL : k ∉ L := fun hm => ((hiff k).mp hm).2 hkeys
  have hkeytrans : ∀ j, j ≠ k →
      (j ∉ s.guardKeys ↔ j ∉ (s.dropGuard k).guardKeys) := by
    intro j hjk
    constructor
    · rintro hk2 hm
      exact hk2 (guardKeys_dropGuard_mem.mp hm).1
    · rintro hk2 hm
      exact hk2 (guardKeys_dropGuard_mem.mpr ⟨hm, hjk⟩)
  rcases hsl : s.pool.slots[k]? with _ | sl
  · have hpool : (s.dropGuard k).pool = s.pool := by
      simp only [PoolState.dropGuard]
      unfold SharedSlots.dropSlotRef
      rw [hsl]
    refine ⟨L, by rw [hpool]; exact hc, hnd, ?_⟩
    intro j
    rw [hpool]
    by_cases hjk : j = k
    · subst hjk
      constructor
      · intro hm
        exact absurd hm hkL
      · rintro ⟨⟨n, hn⟩, _⟩
        rw [hsl] at hn
        cases hn
    · rw [← hkeytrans j hjk]
      exact hiff j
  · cases sl with
    | vacant n =>
      have hk : k < s.pool.slots.length := by
        by_contra hk2
        rw [List.getElem?_eq_none (by omega)] at hsl
        cases hsl
      have hpool : (s.dropGuard k).pool =
          ⟨s.pool.slots.set k (.vacant s.pool.next_free), k⟩ := by
        simp only [PoolState.dropGuard]
        unfold SharedSlots.dropSlotRef
        rw [hsl]
      refine ⟨k :: L, ?_, List.nodup_cons.mpr ⟨hkL, hnd⟩, ?_⟩
      · rw [hpool]
        exact Chain.cons (List.getElem?_set_self (by simpa using hk))
          (chain_set_not_mem hkL hc)
      · intro j
        rw [hpool]
        by_cases hjk : j = k
        · subst hjk
          simp only [List.mem_cons, true_or, true_iff]
          refine ⟨⟨s.pool.next_free, List.getElem?_set_self (by simpa using hk)⟩, ?_⟩
          intro hm
          exact (guardKeys_dropGuard_mem.mp hm).2 rfl
        · rw [List.mem_cons, or_iff_right hjk,
            List.getElem?_set_ne (show k ≠ j from fun he => hjk he.symm),
            ← hkeytrans j hjk]
          exact hiff j
    | occupied v =>
      have hpool : (s.dropGuard k).pool = s.pool := by
        simp only [PoolState.dropGuard]
        unfold SharedSlots.dropSlotRef
        rw [hsl]
      refine ⟨L, by rw [hpool]; exact hc, hnd, ?_⟩
      intro j
      rw [hpool]
      by_cases hjk : j = k
      · subst hjk
        constructor
        · intro hm
          exact absurd hm hkL
        · rintro ⟨⟨n, hn⟩, _⟩
          rw [hsl] at hn
          cases hn
      · rw [← hkeytrans j hjk]
        exact hiff j

theorem flv_stepR {s s' : PoolState T} (h : StepR T s s') (hinv : FreeListInv s) :
    FreeListInv s' := by
  cases h with
  | reserve h => exact flv_reserve h hinv
  | get hres h => exact flv_get hres h hinv
  | take hres h => exact flv_take hres h hinv
  | insert h => exact flv_insert h hinv
  | reservedInsert hg => exact flv_reservedInsert hg hinv
  | occupiedTake hg => exact flv_occupiedTake hg hinv
  | dropGuard hg => exact flv_dropGuard hg hinv

theorem chain_init {N : Nat} :
    ∀ d k, k + d = N →
      Chain ((List.range N).map (fun i => (Slot.vacant (i + 1) : Slot T))) k
        (List.range' k d) := by
  intro d
  induction d with
  | zero =>
    intro k hk
    exact Chain.nil (by simp; omega)
  | succ d ih =>
    intro k hk
    have hkN : k < N := by omega
    refine Chain.cons ?_ (ih (k + 1) (by omega))
    rw [List.getElem?_map, List.getElem?_range hkN]
    rfl

theorem freeListInv_init {N : Nat} : FreeListInv (initState T N) := by
  refine ⟨List.range N, ?_, List.nodup_range N, ?_⟩
  · rw [List.range_eq_range']
    exact chain_init N 0 (by omega)
  · intro k
    simp only [List.mem_range, initState, PoolState.guardKeys, List.map_nil,
      List.not_mem_nil, not_false_eq_true, and_true]
    constructor
    · intro hk
      refine ⟨k + 1, ?_⟩
      rw [List.getElem?_map, List.getElem?_range hk]
      rfl
    · rintro ⟨n, hn⟩
      by_contra hk
      rw [List.getElem?_eq_none (by simp; omega)] at hn
      cases hn

end PoolState

/-! ### Claims C1 … C6 -/

open PoolState

/-- C3. Key uniqueness: two successive successful `reserve` calls always
return distinct keys, and in every reachable pool state the keys of the live
guards are pairwise distinct (no two live guards ever refer to the same key).
Thread interleavings are modelled as sequences of atomic operations — sound
here because `reserve` runs entirely under the `next_free` mutex and each
guard holds its slot's mutex until dropped — and the second conjunct holds in
every state reachable by any operation sequence whatsoever. -/
theorem C3_reserve_distinct_keys :
    (∀ (T : Type) (s s1 s2 : PoolState T) (k1 k2 : Nat),
      s.reserve = .ok (some k1, s1) → s1.reserve = .ok (some k2, s2) → k1 ≠ k2) ∧
    (∀ (T : Type) (N : Nat) (s : PoolState T), Reachable T N s → s.guardKeys.Nodup) := by
  constructor
  · intro T s s1 s2 k1 k2 h1 h2
    rcases reserve_ok_cases h1 with ⟨_, hr, _⟩ | ⟨next, hs1, hl1, hr1, rfl⟩
    · cases hr
    · rcases reserve_ok_cases h2 with ⟨_, hr, _⟩ | ⟨next2, hs2, hl2, hr2, _⟩
      · cases hr
      · have hk1 : k1 = s.pool.next_free := by cases hr1; rfl
        have hnog := isLocked_false_iff.mp hl2
        have hmem : (⟨s.pool.next_free, .reserved⟩ : Guard) ∈
            (⟨⟨s.pool.slots, next⟩, ⟨s.pool.next_free, .reserved⟩ :: s.guards⟩ :
              PoolState T).guards := List.mem_cons_self _ _
        have hk2 := hnog _ hmem
        have hk2' : k2 = next := by cases hr2; rfl
        subst hk1
        intro he
        exact hk2 (by rw [he, hk2'])
  · intro T N s h
    exact (wf_reachable h).nodup

/-- C6. Occupied-drop frame property: in any reachable state, dropping a
live `Occupied` guard performs no free-list action — the whole shared pool
(every slot's contents and `next` link, and the free-list head) is unchanged —
and the stored value remains readable: a later `get` on the same key returns
an `Occupied` guard dereferencing to the same value. -/
theorem C6_occupied_drop_frame : ∀ (T : Type) (N : Nat) (s : PoolState T) (k : Nat),
    Reachable T N s → (⟨k, .occupied⟩ : Guard) ∈ s.guards →
    (s.dropGuard k).pool = s.pool ∧
    ∃ v, s.pool.slots[k]? = some (.occupied v) ∧
      (s.dropGuard k).get k = .ok (some v, ⟨s.pool, ⟨k, .occupied⟩ :: (s.dropGuard k).guards⟩) := by
  intro T N s k hreach hg
  have hwf := wf_reachable hreach
  obtain ⟨v, hv⟩ := hwf.occG k hg
  have hpool : (s.dropGuard k).pool = s.pool := by
    simp only [PoolState.dropGuard]
    unfold SharedSlots.dropSlotRef
    rw [hv]
  refine ⟨hpool, v, hv, ?_⟩
  have hlock : (s.dropGuard k).isLocked k = false := by
    rw [isLocked_false_iff]
    intro g hgm
    simp only [PoolState.dropGuard, List.mem_filter] at hgm
    simpa using hgm.2
  simp only [PoolState.get, hpool, hv, hlock]
  rfl

/-- C4. Capacity bound and exhaustion signalling: on a fresh pool of
capacity `N`, the first `N` `reserve` calls succeed (yielding keys
`0, …, N-1`, all guards held live); with all `N` guards live the next
`reserve` returns `None` (the slot lookup fails, no slot lock is taken) and
`insert` likewise returns `None`; and in every reachable state of a
capacity-`N` pool at most `N` live guards exist. -/
theorem C4_capacity_bound : ∀ (N : Nat) (v : Nat),
    (afterReserves Nat N 0 = initState Nat N) ∧
    (∀ k, k < N → (afterReserves Nat N k).reserve = .ok (some k, afterReserves Nat N (k + 1))) ∧
    ((afterReserves Nat N N).reserve = .ok (none, afterReserves Nat N N)) ∧
    ((afterReserves Nat N N).insert v = .ok (none, afterReserves Nat N N)) ∧
    ((afterReserves Nat N N).guards.length = N) ∧
    (∀ (T : Type) (s : PoolState T), Reachable T N s → s.guards.length ≤ N) := by
  intro N v
  have hlen : ((List.range N).map (fun i => (Slot.vacant (i + 1) : Slot Nat))).length = N := by
    simp
  have hfullres : (afterReserves Nat N N).reserve = .ok (none, afterReserves Nat N N) := by
    simp only [PoolState.reserve, afterReserves]
    rw [List.getElem?_eq_none (by simp)]
  refine ⟨?_, ?_, hfullres, ?_, ?_, ?_⟩
  · simp [afterReserves, reservedChain, initState]
  · intro k hk
    have hslot : ((List.range N).map (fun i => (Slot.vacant (i + 1) : Slot Nat)))[k]? =
        some (.vacant (k + 1)) := by
      rw [List.getElem?_map, List.getElem?_range hk]
      rfl
    have hlock : (afterReserves Nat N k).isLocked k = false := by
      rw [isLocked_false_iff]
      intro g hg
      simp only [afterReserves, reservedChain, List.mem_map, List.mem_reverse,
        List.mem_range] at hg
      obtain ⟨i, hi, rfl⟩ := hg
      simpa using Nat.ne_of_lt hi
    simp only [PoolState.reserve, afterReserves] at hlock ⊢
    rw [hslot]
    simp only [hlock]
    simp only [afterReserves, reservedChain]
    rw [List.range_succ, List.reverse_append, List.map_append]
    rfl
  · simp only [PoolState.insert, hfullres]
  · simp [afterReserves, reservedChain]
  · intro T s h
    have hwf := wf_reachable h
    have hN := reachable_slots_length h
    have hlt : ∀ x ∈ s.guardKeys, x < N := by
      intro x hx
      rw [guardKeys_mem] at hx
      obtain ⟨g, hg, rfl⟩ := hx
      exact hN ▸ hwf.keys_lt g hg
    have hsub : s.guardKeys.toFinset ⊆ Finset.range N := by
      intro x hx
      rw [List.mem_toFinset] at hx
      exact Finset.mem_range.mpr (hlt x hx)
    have hcard := Finset.card_le_card hsub
    rw [List.toFinset_card_of_nodup hwf.nodup, Finset.card_range] at hcard
    calc s.guards.length = s.guardKeys.length := by simp [PoolState.guardKeys]
    _ ≤ N := hcard

/-- C5. Round trip: whenever `insert(x)` returns `Some(k)`, an immediate
`get(k)` returns an `Occupied` guard dereferencing to `x`; an immediate
`take(k)` instead returns `x` and leaves `k` immediately reusable — the next
`reserve` succeeds and yields exactly the freed key `k`. -/
theorem C5_round_trip : ∀ (T : Type) (s : PoolState T) (x : T) (k : Nat) (s' : PoolState T),
    s.insert x = .ok (some k, s') →
    (s'.get k = .ok (some x, ⟨s'.pool, ⟨k, .occupied⟩ :: s'.guards⟩)) ∧
    (∃ s2, s'.take k = .ok (some x, s2) ∧ ∃ s3, s2.reserve = .ok (some k, s3)) := by
  intro T s x k s' h
  rcases insert_ok_cases h with ⟨_, hr, _⟩ | ⟨next, h1, h2, hr, rfl⟩
  · cases hr
  · have hkey : k = s.pool.next_free := by cases hr; rfl
    subst hkey
    set k := s.pool.next_free with hkdef
    have hk : k < s.pool.slots.length := by
      by_contra hk
      rw [List.getElem?_eq_none (by omega)] at h1
      cases h1
    have hslot' : (s.pool.slots.set k (.occupied x))[k]? = some (.occupied x) :=
      List.getElem?_set_self (by simpa using hk)
    have hnog := isLocked_false_iff.mp h2
    have hlock' : (⟨⟨s.pool.slots.set k (.occupied x), next⟩, s.guards⟩ :
        PoolState T).isLocked k = false := by
      rw [isLocked_false_iff]
      exact fun g hg => hnog g hg
    constructor
    · simp only [PoolState.get, hslot', hlock']
      rfl
    · refine ⟨⟨⟨(s.pool.slots.set k (.occupied x)).set k (.vacant next), k⟩, s.guards⟩, ?_, ?_⟩
      · have hdrop : (⟨(s.pool.slots.set k (.occupied x)).set k (.vacant USIZE_MAX),
            next⟩ : SharedSlots T).dropSlotRef k =
            ⟨(s.pool.slots.set k (.occupied x)).set k (.vacant next), k⟩ := by
          unfold SharedSlots.dropSlotRef
          rw [List.getElem?_set_self (by simp [List.length_set]; omega)]
          rw [List.set_set]
        simp only [PoolState.take, hslot', hlock', hdrop]
        rfl
      · have hslot2 : ((s.pool.slots.set k (.occupied x)).set k (.vacant next))[k]? =
            some (.vacant next) :=
          List.getElem?_set_self (by simp [List.length_set]; omega)
        have hlock2 : (⟨⟨(s.pool.slots.set k (.occupied x)).set k (.vacant next), k⟩,
            s.guards⟩ : PoolState T).isLocked k = false := by
          rw [isLocked_false_iff]
          exact fun g hg => hnog g hg
        refine ⟨⟨⟨(s.pool.slots.set k (.occupied x)).set k (.vacant next), next⟩,
          ⟨k, .reserved⟩ :: s.guards⟩, ?_⟩
        simp only [PoolState.reserve, hslot2, hlock2]
        rfl

/-- C1, amended. Free-list integrity invariant, for every state reachable
by public operations in which `get`/`take` are never invoked on an in-range
currently-`Vacant` key: following the `Vacant` `next` links from the
free-list head visits every currently-`Vacant` slot not held by a live guard
exactly once (no slot appears twice, the chain never cycles) and terminates
at an out-of-range sentinel; every key not on the chain is `Occupied` or held
by a live guard. The restriction is forced by `C1_counterexample`: a `get` on
a vacant key re-pushes that key onto the free list and breaks the invariant. -/
theorem C1_free_list_invariant : ∀ (T : Type) (N : Nat) (s : PoolState T),
    ReachableR T N s → FreeListInv s := by
  intro T N s h
  induction h with
  | refl => exact freeListInv_init
  | tail _ hstep ih => exact flv_stepR hstep ih

/-- C1, witness: the invariant at the initial state of a capacity-1 pool,
obtained from the amended theorem. -/
theorem C1_witness : FreeListInv (initState Nat 1) :=
  C1_free_list_invariant Nat 1 (initState Nat 1) Relation.ReflTransGen.refl

/-- C1, counterexample to the claim as stated. On a fresh pool of
capacity 2, the single public call `get(0)` — whose key is in range but whose
slot is `Vacant` — yields a reachable state in which the free-list invariant
fails: the temporary `SlotRef` dropped on the `return None` path re-pushes
key 0, making slot 0's `next` link point to itself, so the chain from the
head revisits slot 0 forever and never reaches the still-vacant slot 1. -/
theorem C1_counterexample :
    Reachable Nat 2 ⟨⟨[.vacant 0, .vacant 2], 0⟩, []⟩ ∧
    ¬ FreeListInv (⟨⟨[.vacant 0, .vacant 2], 0⟩, []⟩ : PoolState Nat) := by
  constructor
  · refine Relation.ReflTransGen.tail Relation.ReflTransGen.refl (Step.get (k := 0) (r := none) ?_)
    decide
  · rintro ⟨L, hc, hnd, hiff⟩
    cases hc with
    | nil hlen => simp at hlen
    | cons hget hch =>
      rename_i next l
      have hnext : next = 0 := by
        rw [show ([Slot.vacant 0, Slot.vacant 2] : List (Slot Nat))[0]? =
          some (.vacant 0) from rfl] at hget
        cases hget
        rfl
      subst hnext
      cases hch with
      | nil hlen => simp at hlen
      | cons hget2 hch2 =>
        rw [List.nodup_cons] at hnd
        exact hnd.1 (List.mem_cons_self _ _)

/-- C2. The claim states that `get`/`take` on an out-of-range or
currently-vacant key return `None`, leave the pool unchanged, and can never
lead to a fatal abort. The code violates this: `get(0)` on a fresh capacity-1
pool returns `None` but mutates the pool (the dropped `SlotRef` re-pushes
key 0, corrupting the free list), after which `insert(5)` succeeds but leaves
the head pointing at the now-`Occupied` slot 0, so the next `reserve` reaches
the `unreachable!` arm — a fatal panic (`fatal` in the model). The spec's
error taxonomy calls an invalid key a harmless race that is never a fatal
error, so the early-return drop in `get`/`take` is a slip in the code. -/
theorem C2_invalid_key_abort :
    (initState Nat 1).get 0 = .ok (none, ⟨⟨[.vacant 0], 0⟩, []⟩) ∧
    (⟨⟨[.vacant 0], 0⟩, []⟩ : PoolState Nat) ≠ initState Nat 1 ∧
    (⟨⟨[.vacant 0], 0⟩, []⟩ : PoolState Nat).insert 5 = .ok (some 0, ⟨⟨[.occupied 5], 0⟩, []⟩) ∧
    (⟨⟨[.occupied 5], 0⟩, []⟩ : PoolState Nat).reserve = .fatal := by
  refine ⟨by decide, by decide, by decide, by decide⟩

/-- C3, witness: two successful reserves on a fresh capacity-2 pool
receive keys 0 and 1, which are distinct. -/
theorem C3_witness :
    (initState Nat 2).reserve =
      .ok (some 0, ⟨⟨[.vacant 1, .vacant 2], 1⟩, [⟨0, .reserved⟩]⟩) ∧
    (⟨⟨[.vacant 1, .vacant 2], 1⟩, [⟨0, .reserved⟩]⟩ : PoolState Nat).reserve =
      .ok (some 1, ⟨⟨[.vacant 1, .vacant 2], 2⟩, [⟨1, .reserved⟩, ⟨0, .reserved⟩]⟩) ∧
    (0 : Nat) ≠ 1 :=
  ⟨by decide, by decide,
   C3_reserve_distinct_keys.1 Nat (initState Nat 2)
     ⟨⟨[.vacant 1, .vacant 2], 1⟩, [⟨0, .reserved⟩]⟩
     ⟨⟨[.vacant 1, .vacant 2], 2⟩, [⟨1, .reserved⟩, ⟨0, .reserved⟩]⟩
     0 1 (by decide) (by decide)⟩

/-- C4, witness: the capacity bound instantiated on a capacity-1 pool. -/
theorem C4_witness :
    (afterReserves Nat 1 0).reserve = .ok (some 0, afterReserves Nat 1 1) ∧
    (afterReserves Nat 1 1).reserve = .ok (none, afterReserves Nat 1 1) ∧
    (initState Nat 1).guards.length ≤ 1 :=
  ⟨(C4_capacity_bound 1 0).2.1 0 (by decide), (C4_capacity_bound 1 0).2.2.1,
   (C4_capacity_bound 1 0).2.2.2.2.2 Nat (initState Nat 1) Relation.ReflTransGen.refl⟩

/-- C5, witness: the round trip after `insert 7` on a fresh capacity-1
pool, which returns key 0. -/
theorem C5_witness :
    (initState Nat 1).insert 7 = .ok (some 0, ⟨⟨[.occupied 7], 1⟩, []⟩) ∧
    ((⟨⟨[.occupied 7], 1⟩, []⟩ : PoolState Nat).get 0 =
      .ok (some 7, ⟨⟨[.occupied 7], 1⟩, [⟨0, .occupied⟩]⟩) ∧
     ∃ s2, (⟨⟨[.occupied 7], 1⟩, []⟩ : PoolState Nat).take 0 = .ok (some 7, s2) ∧
       ∃ s3, s2.reserve = .ok (some 0, s3)) :=
  ⟨by decide, C5_round_trip Nat (initState Nat 1) 7 0 ⟨⟨[.occupied 7], 1⟩, []⟩ (by decide)⟩

/-- C6, witness: the frame property at the reachable state of a capacity-1
pool whose single slot holds 5 under a live `Occupied` guard. -/
theorem C6_witness :
    ((⟨⟨[.occupied 5], 1⟩, [⟨0, .occupied⟩]⟩ : PoolState Nat).dropGuard 0).pool =
      (⟨⟨[.occupied 5], 1⟩, [⟨0, .occupied⟩]⟩ : PoolState Nat).pool ∧
    ∃ v, (⟨⟨[.occupied 5], 1⟩, [⟨0, .occupied⟩]⟩ : PoolState Nat).pool.slots[0]? =
        some (.occupied v) ∧
      ((⟨⟨[.occupied 5], 1⟩, [⟨0, .occupied⟩]⟩ : PoolState Nat).dropGuard 0).get 0 =
        .ok (some v, ⟨(⟨⟨[.occupied 5], 1⟩, [⟨0, .occupied⟩]⟩ : PoolState Nat).pool,
          ⟨0, .occupied⟩ ::
            ((⟨⟨[.occupied 5], 1⟩, [⟨0, .occupied⟩]⟩ : PoolState Nat).dropGuard 0).guards⟩) := by
  have hreach : Reachable Nat 1 ⟨⟨[.occupied 5], 1⟩, [⟨0, .occupied⟩]⟩ := by
    have hres : (initState Nat 1).reserve =
        .ok (some 0, (⟨⟨[.vacant 1], 1⟩, [⟨0, .reserved⟩]⟩ : PoolState Nat)) := by decide
    refine Relation.ReflTransGen.tail (Relation.ReflTransGen.tail Relation.ReflTransGen.refl
      (Step.reserve hres)) ?_
    · have h := Step.reservedInsert (T := Nat)
        (s := ⟨⟨[.vacant 1], 1⟩, [⟨0, .reserved⟩]⟩) (k := 0) (v := 5) (by decide)
      rwa [show (⟨⟨[.vacant 1], 1⟩, [⟨0, .reserved⟩]⟩ : PoolState Nat).reservedInsert 0 5 =
        ⟨⟨[.occupied 5], 1⟩, [⟨0, .occupied⟩]⟩ from by decide] at h
  exact C6_occupied_drop_frame Nat 1 ⟨⟨[.occupied 5], 1⟩, [⟨0, .occupied⟩]⟩ 0 hreach (by decide)
